import Mathlib

/-!
Shallow embedding of `src/term_fixer.py` (product-name-normalizer).

Modelling conventions:
* Python `str` is Lean `String` (a structure around `List Char`); `len` is the
  number of characters, matching Python's code-point length for the ASCII data
  handled here.
* `str.casefold()` and `re.IGNORECASE` are modelled by per-character ASCII
  lowercasing (`Char.toLower`), which agrees with Python on the ASCII range.
* `str.strip()` is modelled by dropping whitespace characters from both ends.
* A compiled regex `re.compile(rf"\b{re.escape(vv)}\b", re.IGNORECASE)` is
  modelled by its literal `vv` together with the word-boundary conditions of
  `\b`; `pat.sub` is modelled by an explicit left-to-right non-overlapping
  scan over the original character list.
* The dictionary file is modelled at the parsed-JSON level (`Json` below);
  the byte-level serialization of `_atomic_write_json` is modelled separately
  for the persistence claims.
* The process state (`SysState`) carries the file content, its modification
  version (`st_mtime_ns`, bumped by every write), and the `lru_cache` of
  `_compiled_rules_for`, keyed by mtime (the path is fixed throughout).
-/

namespace TermFixer

/-- Python `\w` (word character) restricted to ASCII: letters, digits, `_`. -/
def isWordChar (c : Char) : Bool := c.isAlpha || c.isDigit || c == '_'

/-- `str.casefold()` (ASCII model): lowercase every character. -/
def casefold (s : String) : String := ⟨s.data.map Char.toLower⟩

/-- `str.strip()`: drop whitespace from both ends. -/
def pyStrip (s : String) : String :=
  ⟨((s.data.dropWhile Char.isWhitespace).reverse.dropWhile Char.isWhitespace).reverse⟩

/-- A Python `dict[str, list[str]]` in iteration order: association list. -/
abbrev TermMap := List (String × List String)

def DEFAULT_TERMS : TermMap :=
  [("Claude Code", ["Cloudcode", "Cloud Code", "ClaudeCode"]),
   ("Antigravity", ["Antygravity", "AntiGravity", "Anti-gravity"]),
   ("Wispr Flow", ["Wisprflow", "WisprFlow", "Whispr Flow"]),
   ("Cursor", ["Curser"]),
   ("Windsurf", ["WindSurf", "Wind Surf"]),
   ("Firecrawl", ["Fire Crawl", "FireCrawl"]),
   ("Snowflake", ["SnowFlake"]),
   ("Lovable", ["Loveable"]),
   ("Replit", ["Repl.it"])]

/-- `_dedup_preserve_order`: keep the first occurrence of each casefolded key;
`seen` models the accumulated `set` of casefolded keys. -/
def dedupAux (seen : List String) : List String → List String
  | [] => []
  | x :: xs =>
    if casefold x ∈ seen then dedupAux seen xs
    else x :: dedupAux (casefold x :: seen) xs

def _dedup_preserve_order (items : List String) : List String := dedupAux [] items

/-- One compiled rule `(pat, correct, len(vv))`: the regex is represented by the
escaped literal `vv` it was built from. -/
structure Rule where
  lit : String
  repl : String
  prio : Nat
deriving DecidableEq

/-- The rules contributed by one `terms.items()` entry in `_compile_rules`:
skip blank canonicals, prepend the canonical to its variants, dedup
case-insensitively, strip each variant and drop empties. -/
def rulesOfEntry (correct : String) (variants : List String) : List Rule :=
  if pyStrip correct = "" then []
  else
    (_dedup_preserve_order (correct :: variants)).filterMap (fun v =>
      let vv := pyStrip v
      if vv = "" then none else some ⟨vv, correct, vv.length⟩)

/-- The rule list of `_compile_rules` before the final `rules.sort`. -/
def raw_rules (terms : TermMap) : List Rule :=
  (terms.map (fun p => rulesOfEntry p.1 p.2)).flatten

/-- Ordering used by `rules.sort(key=lambda t: t[2], reverse=True)`:
descending priority. -/
def rle (a b : Rule) : Prop := b.prio ≤ a.prio

instance : DecidableRel rle := fun a b => Nat.decLe b.prio a.prio

instance : IsTotal Rule rle := ⟨fun a b => Nat.le_total b.prio a.prio⟩

instance : IsTrans Rule rle := ⟨fun _ _ _ h1 h2 => Nat.le_trans h2 h1⟩

/-- `_compile_rules`: collect the per-entry rules, then stable-sort by
descending priority (Python `list.sort` is stable; so is insertion sort). -/
def _compile_rules (terms : TermMap) : List Rule :=
  List.insertionSort rle (raw_rules terms)

/-- The cached shape `tuple((pat, repl) for pat, repl, _ in rules)`. -/
abbrev CRules := List (String × String)

def crulesOf (rules : List Rule) : CRules := rules.map (fun r => (r.lit, r.repl))

/-- Word-ness of the character on one side of a candidate `\b` position;
outside the string counts as non-word. -/
def wordB : Option Char → Bool
  | none => false
  | some c => isWordChar c

/-- Case-insensitive comparison of `lit` against the start of `s`
(`re.IGNORECASE` on the escaped literal). -/
def ciStarts : List Char → List Char → Bool
  | [], _ => true
  | _ :: _, [] => false
  | a :: as, b :: bs => (a.toLower == b.toLower) && ciStarts as bs

/-- Does `\b lit \b` (case-insensitive) match at the current position?
`prev` is the original character just before the position. -/
def matchesAt (lit : List Char) (prev : Option Char) (s : List Char) : Bool :=
  ciStarts lit s
    && (wordB prev != wordB s.head?)
    && (wordB (s.take lit.length).getLast? != wordB (s.drop lit.length).head?)

/-- `pat.sub(repl, s)`: left-to-right scan over the original characters;
at a match emit `repl` and resume after the matched span (whose last original
character becomes the new `prev`), otherwise copy one character.
(`lit` is never empty: `_compile_rules` drops empty variants.) -/
def substAux (lit repl : List Char) : Nat → Option Char → List Char → List Char
  | 0, _, _ => []
  | _ + 1, _, [] => []
  | fuel + 1, prev, c :: cs =>
    if matchesAt lit prev (c :: cs) then
      repl ++ substAux lit repl fuel ((c :: cs).take lit.length).getLast?
        (cs.drop (lit.length - 1))
    else
      c :: substAux lit repl fuel (some c) cs

/-- Every `substAux` step consumes at least one character of the text, so
passing the text's length as fuel runs the scan to completion. -/
def pySub (lit repl s : String) : String :=
  ⟨substAux lit.data repl.data s.data.length none s.data⟩

/-- The inner loop `for pat, repl in rules: updated = pat.sub(repl, updated)`. -/
def applyCRules (rules : CRules) (s : String) : String :=
  rules.foldl (fun acc pr => pySub pr.1 pr.2 acc) s

/-- `_TAG_SPLIT_RE.split(text)` for the pattern `(<[^>]+>)`: scan left to
right; a match starts at a `<` that is followed by at least one non-`>`
character and then a `>`; the result alternates gap, match, gap, … starting
and ending with a (possibly empty) gap.  `acc` is the current gap, reversed. -/
def tagSplitAux : Nat → List Char → List Char → List (List Char)
  | 0, acc, _ => [acc.reverse]
  | _ + 1, acc, [] => [acc.reverse]
  | fuel + 1, acc, c :: cs =>
    match cs.dropWhile (fun x => x ≠ '>') with
    | '>' :: after =>
      if c = '<' ∧ cs.takeWhile (fun x => x ≠ '>') ≠ [] then
        acc.reverse :: ('<' :: (cs.takeWhile (fun x => x ≠ '>') ++ ['>']))
          :: tagSplitAux fuel [] after
      else tagSplitAux fuel (c :: acc) cs
    | _ => tagSplitAux fuel (c :: acc) cs

/-- The list of parts returned by `_TAG_SPLIT_RE.split(text)`.  Every
`tagSplitAux` step consumes at least one character, so the text's length is
enough fuel. -/
def _TAG_SPLIT (s : String) : List String :=
  (tagSplitAux s.data.length [] s.data).map (fun d => ⟨d⟩)

/-- Whether `fix_terms` leaves a part alone:
`if not part or (part.startswith("<") and part.endswith(">")): continue`. -/
def isSkippedPart (p : String) : Bool :=
  p.data.isEmpty || (p.data.head? == some '<' && p.data.getLast? == some '>')

/-- Processing of one part in the `fix_terms` loop. -/
def processPart (rules : CRules) (part : String) : String :=
  if isSkippedPart part then part else applyCRules rules part

/-- The pure text pass of `fix_terms`, given the (cached) compiled rules:
empty-input early return, markup-aware split, per-part substitution,
reassembly by `"".join(parts)`. -/
def fix_terms_with (rules : CRules) (text : String) : String :=
  if text = "" then text
  else String.join ((_TAG_SPLIT text).map (processPart rules))

/-- Parsed JSON values (`json.loads` output; object keys are always strings). -/
inductive Json where
  | null
  | bool (b : Bool)
  | num (n : Int)
  | str (s : String)
  | arr (elems : List Json)
  | obj (fields : List (String × Json))

/-- The two error conditions of the engine (both `ValueError` in Python,
distinguished by raise site and message, as in the spec's taxonomy). -/
inductive TermError where
  | formatError
  | validationError
deriving DecidableEq

/-- `isinstance(v, list) and all(isinstance(x, str) for x in v)` with the
string contents; `none` when `v` is not a list of strings. -/
def strListOf : List Json → Option (List String)
  | [] => some []
  | Json.str s :: rest => (strListOf rest).map (fun ss => s :: ss)
  | _ :: _ => none

/-- The variant list `_load_terms` keeps for an entry value: a list of
strings is taken as-is, anything else is coerced to `[]` (permissive read). -/
def jsonVariants : Json → List String
  | Json.arr xs => (strListOf xs).getD []
  | _ => []

/-- Python `dict` assignment `d[k] = v`: update in place if the key exists,
otherwise append at the end. -/
def dictInsert {α : Type} (m : List (String × α)) (k : String) (v : α) :
    List (String × α) :=
  if m.any (fun p => p.1 == k) then
    m.map (fun p => if p.1 == k then (k, v) else p)
  else m ++ [(k, v)]

/-- Python `dict.get`: value of the first (only) entry with exactly key `k`. -/
def lookup (k : String) (m : TermMap) : Option (List String) :=
  (m.find? (fun p => p.1 == k)).map (fun p => p.2)

/-- `_load_terms` on the parsed content `raw`: `FormatError` unless it is a
JSON object, otherwise keep every entry (keys of parsed JSON are always
strings, so the `isinstance(k, str)` guard never skips). -/
def _load_terms (raw : Json) : Except TermError TermMap :=
  match raw with
  | Json.obj fields =>
    Except.ok (fields.foldl (fun acc kv => dictInsert acc kv.1 (jsonVariants kv.2)) [])
  | _ => Except.error TermError.formatError

/-- The JSON value `_atomic_write_json` persists for a term map. -/
def jsonOfTerms (t : TermMap) : Json :=
  Json.obj (t.map (fun p => (p.1, Json.arr (p.2.map Json.str))))

/-- Content of the file created by `_ensure_terms_file`. -/
def defaultJson : Json := jsonOfTerms DEFAULT_TERMS

/-- The pure merge step of `add_term`, after validation/trimming: resolve the
canonical key case-insensitively (reusing an existing key's casing), merge and
dedup the variants, drop variants equal to the canonical key, store. -/
def add_term_map (correct : String) (variants : List String) (terms : TermMap) :
    TermMap :=
  let canonical_key :=
    ((terms.map Prod.fst).find? (fun k => casefold k == casefold correct)).getD correct
  let existing := (lookup canonical_key terms).getD []
  let merged0 := _dedup_preserve_order (existing ++ variants)
  let merged := merged0.filter (fun v => casefold v ≠ casefold canonical_key)
  dictInsert terms canonical_key merged

/-- The canonical key a (trimmed) `correct` argument resolves to. -/
def touched_key (terms : TermMap) (correct : String) : String :=
  ((terms.map Prod.fst).find? (fun k => casefold k == casefold correct)).getD correct

/-- The variant list `add_term` stores for the resolved canonical key. -/
def merged_for (terms : TermMap) (correct : String) (variants : List String) :
    List String :=
  (_dedup_preserve_order ((lookup (touched_key terms correct) terms).getD [] ++ variants)).filter
    (fun v => casefold v ≠ casefold (touched_key terms correct))

/-- One `add_term` call in a sequence, with the trimming `add_term` performs. -/
def add_call (t : TermMap) (call : String × List String) : TermMap :=
  add_term_map (pyStrip call.1)
    ((call.2.map pyStrip).filter (fun v => v ≠ "")) t

/-- A sequence of `add_term` merges against the stored map. -/
def add_seq (t : TermMap) (calls : List (String × List String)) : TermMap :=
  calls.foldl add_call t

/-- The canonical keys touched, in order, by a sequence of `add_term` calls. -/
def touched_keys : TermMap → List (String × List String) → List String
  | _, [] => []
  | t, call :: rest =>
    touched_key t (pyStrip call.1) :: touched_keys (add_call t call) rest

/-- Canonical keys are unique under case-insensitive comparison. -/
def KeysUniqueCI (t : TermMap) : Prop :=
  ((t.map Prod.fst).map casefold).Nodup

/-- A variant list is clean for its canonical key: no case-insensitive
duplicates and no entry case-insensitively equal to the key. -/
def CleanEntry (k : String) (vs : List String) : Prop :=
  (vs.map casefold).Nodup ∧ ∀ v ∈ vs, casefold v ≠ casefold k

/-- Lowercase hex digit, as produced by Python's `\uXXXX` escapes. -/
def hexDigitChar (n : Nat) : Char :=
  if n < 10 then Char.ofNat (48 + n) else Char.ofNat (87 + n)

/-- `json.dumps` string escaping with `ensure_ascii=False`: escape the quote,
the backslash and control characters, pass everything else through. -/
def escapeJsonChar (c : Char) : List Char :=
  if c = '"' then ['\\', '"']
  else if c = '\\' then ['\\', '\\']
  else if c = '\n' then ['\\', 'n']
  else if c = '\t' then ['\\', 't']
  else if c = '\r' then ['\\', 'r']
  else if c.toNat = 8 then ['\\', 'b']
  else if c.toNat = 12 then ['\\', 'f']
  else if c.toNat < 32 then
    '\\' :: 'u' :: '0' :: '0' :: [hexDigitChar (c.toNat / 16), hexDigitChar (c.toNat % 16)]
  else [c]

def escapeJsonString (s : String) : String :=
  ⟨'"' :: (s.data.map escapeJsonChar).flatten ++ ['"']⟩

/-- One value of the dictionary object under `json.dumps(..., indent=2)`:
`[]` stays on the key's line, a non-empty list is spread with items indented
by four spaces and the closing bracket by two. -/
def dumpVariants (vs : List String) : String :=
  match vs with
  | [] => "[]"
  | _ =>
    "[\n" ++ String.intercalate ",\n" (vs.map (fun v => "    " ++ escapeJsonString v))
      ++ "\n  ]"

/-- Sort key for `sort_keys=True`: lexicographic code-point order on the key
(Python compares `str` by code points; keys are unique, so the key decides). -/
def keyle (a b : String × List String) : Prop := a.1 ≤ b.1

instance : DecidableRel keyle := fun a b => inferInstanceAs (Decidable (a.1 ≤ b.1))

instance : IsTotal (String × List String) keyle := ⟨fun a b => le_total a.1 b.1⟩

instance : IsTrans (String × List String) keyle := ⟨fun _ _ _ h1 h2 => le_trans h1 h2⟩

/-- Emission of the already-key-sorted entry list under `indent=2`. -/
def dumpsSorted : TermMap → String
  | [] => "\x7b\x7d"
  | sorted =>
    "\x7b\n"
      ++ String.intercalate ",\n"
        (sorted.map (fun p => "  " ++ escapeJsonString p.1 ++ ": " ++ dumpVariants p.2))
      ++ "\n\x7d"

/-- `json.dumps(obj, ensure_ascii=False, indent=2, sort_keys=True)` for a
`dict[str, list[str]]`. -/
def py_json_dumps (t : TermMap) : String := dumpsSorted (List.insertionSort keyle t)

/-- The exact bytes `_atomic_write_json` writes: the dump plus `"\n"`. -/
def serialize_terms (t : TermMap) : String := py_json_dumps t ++ "\n"

/-- Filesystem view for the persistence claims: whether the parent directory
exists, the target file's content and the temporary sibling's content. -/
structure FileSys where
  parentDirs : Bool
  target : Option String
  tmp : Option String

/-- `path.parent.mkdir(parents=True, exist_ok=True)`. -/
def mkdirStep (fs : FileSys) : FileSys := { fs with parentDirs := true }

/-- `tmp.write_text(...)`: only the temporary sibling changes. -/
def writeTmpStep (content : String) (fs : FileSys) : FileSys :=
  { fs with tmp := some content }

/-- `os.replace(tmp, path)`: atomically rename the temporary over the target. -/
def replaceStep (fs : FileSys) : FileSys := { fs with target := fs.tmp, tmp := none }

/-- `_atomic_write_json(path, obj)` at the byte level. -/
def _atomic_write_json (t : TermMap) (fs : FileSys) : FileSys :=
  replaceStep (writeTmpStep (serialize_terms t) (mkdirStep fs))

/-- `lru_cache(maxsize=16)` on `_compiled_rules_for`. -/
def CACHE_CAP : Nat := 16

/-- Process + file state: the dictionary file's parsed content (`none` when
the file does not exist), its modification version (`st_mtime_ns`; every
write produces a fresh, strictly larger value) and the rule cache, stored
most-recently-used first (the path is fixed, so `mtime` alone is the key). -/
structure SysState where
  file : Option Json
  mtime : Nat
  cache : List (Nat × CRules)

/-- `_ensure_terms_file`: create the file with `DEFAULT_TERMS` when absent. -/
def _ensure_terms_file (st : SysState) : SysState :=
  match st.file with
  | some _ => st
  | none => { st with file := some defaultJson, mtime := st.mtime + 1 }

/-- The file content after an `_ensure_terms_file` (always present then). -/
def currentJson (st : SysState) : Json := st.file.getD defaultJson

/-- The body of `_compiled_rules_for`: load the terms from the file content
and compile, keeping only `(pat, repl)` pairs; `_load_terms`'s `ValueError`
for a non-object file propagates. -/
def compiledFor (raw : Json) : Except TermError CRules :=
  (_load_terms raw).map (fun terms => crulesOf (_compile_rules terms))

def lookupCache (c : List (Nat × CRules)) (m : Nat) : Option CRules :=
  (c.find? (fun p => p.1 == m)).map (fun p => p.2)

/-- An `lru_cache` hit refreshes the entry's recency. -/
def touchCache (c : List (Nat × CRules)) (m : Nat) : List (Nat × CRules) :=
  match c.find? (fun p => p.1 == m) with
  | some e => e :: c.eraseP (fun p => p.1 == m)
  | none => c

/-- An `lru_cache` miss stores the new entry, evicting the least recently
used one beyond the capacity. -/
def insertCache (c : List (Nat × CRules)) (m : Nat) (r : CRules) :
    List (Nat × CRules) :=
  ((m, r) :: c).take CACHE_CAP

/-- `fix_terms(text)`: empty-input early return; ensure the file; stat its
mtime; consult the cache keyed by it, compiling on a miss; run the pure text
pass.  (The `FileNotFoundError` retry cannot fire in this sequential model:
after `_ensure_terms_file` the file exists.) -/
def fix_terms (st : SysState) (text : String) :
    (Except TermError String) × SysState :=
  if text = "" then (Except.ok text, st)
  else
    let st1 := _ensure_terms_file st
    match lookupCache st1.cache st1.mtime with
    | some rules =>
      (Except.ok (fix_terms_with rules text),
        { st1 with cache := touchCache st1.cache st1.mtime })
    | none =>
      match compiledFor (currentJson st1) with
      | Except.error e => (Except.error e, st1)
      | Except.ok rules =>
        (Except.ok (fix_terms_with rules text),
          { st1 with cache := insertCache st1.cache st1.mtime rules })

/-- The uncached reference: reload and recompile the dictionary on every
call (the refinement target of the cache-coherence claim). -/
def fix_terms_nocache (st : SysState) (text : String) :
    (Except TermError String) × SysState :=
  if text = "" then (Except.ok text, st)
  else
    let st1 := _ensure_terms_file st
    match compiledFor (currentJson st1) with
    | Except.error e => (Except.error e, st1)
    | Except.ok rules => (Except.ok (fix_terms_with rules text), st1)

/-- An external dictionary mutation that bumps the modification version. -/
def writeJson (st : SysState) (j : Json) : SysState :=
  { st with file := some j, mtime := st.mtime + 1 }

/-- `add_term(correct, wrong_variants)`: validate, trim, load (ensuring the
file), merge, persist atomically (modelled at the parsed-JSON level; the
bytes written are `serialize_terms` of the new map). -/
def add_term (st : SysState) (correct : String) (wrong_variants : List String) :
    (Except TermError String) × SysState :=
  let c := pyStrip correct
  if c = "" then (Except.error TermError.validationError, st)
  else
    let variants := (wrong_variants.map pyStrip).filter (fun v => v ≠ "")
    let st1 := _ensure_terms_file st
    match _load_terms (currentJson st1) with
    | Except.error e => (Except.error e, st1)
    | Except.ok terms =>
      (Except.ok "ok", writeJson st1 (jsonOfTerms (add_term_map c variants terms)))

/-- A cache entry is never newer than the file and, at the current version,
holds exactly the rules compiled from the current content. -/
def cacheEntryOK (st : SysState) (p : Nat × CRules) : Prop :=
  p.1 ≤ st.mtime ∧
    (p.1 = st.mtime → st.file.map compiledFor = some (Except.ok p.2))

/-- Cache well-formedness: every entry is coherent with the file.  This holds
of the empty cache a process starts with and is preserved by every operation
(proved below); it is the invariant behind cache coherence. -/
def CacheWF (st : SysState) : Prop := ∀ p ∈ st.cache, cacheEntryOK st p

/-- The rules compiled from `DEFAULT_TERMS`, as cached. -/
def defaultCRules : CRules := crulesOf (_compile_rules DEFAULT_TERMS)

/-- A fresh process against a fresh dictionary location. -/
def freshState : SysState := ⟨none, 0, []⟩

/-- The dictionary of the idempotence counterexample. -/
def cexJson : Json := Json.obj [("ab x", Json.arr [Json.str "x"])]

/-- A fresh process whose dictionary file holds `{"ab x": ["x"]}`. -/
def cexState : SysState := ⟨some cexJson, 0, []⟩

/-- The spec's whole-word matching example. -/
def sampleText : String := "Cloudcode, Antygravity, Wisprflow"


/-! ## Theorems -/

theorem dropWhile_head_false (p : Char → Bool) :
    ∀ (l : List Char) (x : Char) (rest : List Char),
      l.dropWhile p = x :: rest → p x = false := by
  intro l
  induction l with
  | nil => intro x rest h; simp [List.dropWhile] at h
  | cons a as ih =>
    intro x rest h
    rw [List.dropWhile_cons] at h
    by_cases hpa : p a
    · rw [if_pos hpa] at h
      exact ih x rest h
    · rw [if_neg hpa] at h
      cases h
      simpa using hpa

theorem tagSplitAux_flatten :
    ∀ (fuel : Nat) (acc s : List Char), s.length ≤ fuel →
      (tagSplitAux fuel acc s).flatten = acc.reverse ++ s := by
  intro fuel
  induction fuel with
  | zero =>
    intro acc s hs
    have : s = [] := List.eq_nil_of_length_eq_zero (Nat.le_zero.mp hs)
    subst this
    simp [tagSplitAux]
  | succ fuel ih =>
    intro acc s hs
    match s with
    | [] => simp [tagSplitAux]
    | c :: cs =>
      rw [tagSplitAux]
      rcases hd : cs.dropWhile (fun x => x ≠ '>') with _ | ⟨x, after⟩
      · rw [ih (c :: acc) cs (by simp at hs; omega)]
        simp
      · have hsplit : cs.takeWhile (fun x => decide (x ≠ '>')) ++ x :: after = cs := by
          rw [← hd, List.takeWhile_append_dropWhile]
        have hxgt : x = '>' := by
          have hx := dropWhile_head_false (fun x => decide (x ≠ '>')) cs x after hd
          simpa using hx
        subst hxgt
        change (if c = '<' ∧ List.takeWhile (fun x => decide (x ≠ '>')) cs ≠ []
          then _ else _ : List (List Char)).flatten = _
        by_cases hc : c = '<' ∧ cs.takeWhile (fun x => x ≠ '>') ≠ []
        · rw [if_pos hc, List.flatten_cons, List.flatten_cons]
          have hlen : after.length ≤ fuel := by
            have := congrArg List.length hsplit
            simp at this hs
            omega
          rw [ih [] after hlen, hc.1]
          simp only [List.reverse_nil, List.nil_append, List.append_assoc, List.cons_append,
            List.singleton_append]
          rw [hsplit]
        · rw [if_neg hc, ih (c :: acc) cs (by simp at hs; omega)]
          simp

theorem join_map_mk (l : List (List Char)) : ∀ (a : String),
    (l.map (fun d => (⟨d⟩ : String))).foldl (fun r s => r ++ s) a
      = ⟨a.data ++ l.flatten⟩ := by
  induction l with
  | nil =>
    intro a
    simp only [List.map_nil, List.foldl_nil, List.flatten_nil, List.append_nil]
  | cons d rest ih =>
    intro a
    simp only [List.map_cons, List.foldl_cons, List.flatten_cons]
    rw [ih]
    cases a
    simp [String.append, List.append_assoc]

theorem join_TAG_SPLIT (t : String) : String.join (_TAG_SPLIT t) = t := by
  rw [_TAG_SPLIT, String.join, join_map_mk,
    tagSplitAux_flatten t.data.length [] t.data (Nat.le_refl _)]
  simp

/-- C2: markup segments recognized by `_TAG_SPLIT_RE` pass through `fix_terms`
verbatim and in order: the output is exactly the original part list with only
the non-markup parts rewritten, and the part list reassembles to the input.
On the spec's example, the attribute value is untouched and the element text
is corrected. -/
theorem fix_terms_markup_frame (rules : CRules) (t : String) :
    fix_terms_with rules t = String.join ((_TAG_SPLIT t).map (processPart rules))
    ∧ String.join (_TAG_SPLIT t) = t
    ∧ fix_terms_with defaultCRules
        "<a href=\"https://example.com/Cloudcode\">Cloudcode</a>"
      = "<a href=\"https://example.com/Cloudcode\">Claude Code</a>" := by
  refine ⟨?_, join_TAG_SPLIT t, by rfl⟩
  by_cases h : t = ""
  · subst h; rfl
  · rw [fix_terms_with, if_neg h]

/-- C1 (amended): one `fix_terms` pass is idempotent on every text whose
output's plain segments are left unchanged by a second rule pass; this is the
sense in which canonical forms mapping to themselves gives idempotence. -/
theorem fix_terms_idempotent_of_stable (rules : CRules) (t : String)
    (h : ∀ p ∈ _TAG_SPLIT (fix_terms_with rules t), processPart rules p = p) :
    fix_terms_with rules (fix_terms_with rules t) = fix_terms_with rules t := by
  by_cases hout : fix_terms_with rules t = ""
  · rw [hout]
    rfl
  · conv_lhs => rw [fix_terms_with, if_neg hout]
    have hm : (_TAG_SPLIT (fix_terms_with rules t)).map (processPart rules)
        = (_TAG_SPLIT (fix_terms_with rules t)).map id :=
      List.map_congr_left (fun p hp => h p hp)
    rw [hm, List.map_id, join_TAG_SPLIT]

theorem fix_terms_idempotent_of_stable_witness :
    fix_terms_with defaultCRules (fix_terms_with defaultCRules sampleText)
      = fix_terms_with defaultCRules sampleText :=
  fix_terms_idempotent_of_stable defaultCRules sampleText (by decide)

/-- C1 counterexample: with the dictionary file `{"ab x": ["x"]}` unchanged
between the two calls, `fix_terms("x")` returns `"ab x"`, but running
`fix_terms` again on that result returns `"ab ab x"`: the canonical
replacement re-exposes the variant `"x"` as a whole word, so
`fix_terms(fix_terms(t))` differs from `fix_terms(t)`. -/
theorem fix_terms_not_idempotent_cex :
    (fix_terms cexState "x").1 = Except.ok "ab x"
    ∧ (fix_terms cexState "x").2.file = some cexJson
    ∧ (fix_terms (fix_terms cexState "x").2 "ab x").1 = Except.ok "ab ab x"
    ∧ ("ab ab x" : String) ≠ "ab x" :=
  ⟨rfl, rfl, rfl, by decide⟩

/-- C10: on empty input `fix_terms` returns the text unchanged and performs
no store access at all: the file, its version and the rule cache are exactly
as before, so in particular no default dictionary is created. -/
theorem fix_terms_empty_identity (st : SysState) :
    fix_terms st "" = (Except.ok "", st) := rfl

theorem lookupCache_eq_none (c : List (Nat × CRules)) (m : Nat)
    (h : ∀ p ∈ c, p.1 < m) : lookupCache c m = none := by
  rw [lookupCache]
  have hf : c.find? (fun p => p.1 == m) = none := by
    rw [List.find?_eq_none]
    intro p hp
    simpa using Nat.ne_of_lt (h p hp)
  rw [hf]
  rfl

theorem lookupCache_mem (c : List (Nat × CRules)) (m : Nat) (r : CRules)
    (h : lookupCache c m = some r) : (m, r) ∈ c := by
  rw [lookupCache] at h
  rcases hf : c.find? (fun p => p.1 == m) with _ | p
  · rw [hf] at h
    cases h
  · rw [hf] at h
    have hm : p.1 = m := by simpa using List.find?_some hf
    have hr : p.2 = r := by simpa using h
    have hmem := List.mem_of_find?_eq_some hf
    rw [← hm, ← hr]
    exact hmem

theorem mem_touchCache (c : List (Nat × CRules)) (m : Nat) (p : Nat × CRules)
    (h : p ∈ touchCache c m) : p ∈ c := by
  rw [touchCache] at h
  rcases hf : c.find? (fun q => q.1 == m) with _ | e
  · rw [hf] at h
    exact h
  · rw [hf] at h
    rcases List.mem_cons.mp h with h1 | h2
    · subst h1
      exact List.mem_of_find?_eq_some hf
    · exact (List.eraseP_sublist c).mem h2

theorem mem_insertCache (c : List (Nat × CRules)) (m : Nat) (r : CRules)
    (p : Nat × CRules) (h : p ∈ insertCache c m r) : p = (m, r) ∨ p ∈ c := by
  rw [insertCache] at h
  exact List.mem_cons.mp ((List.take_sublist _ _).mem h)

theorem file_ensure (st : SysState) :
    (_ensure_terms_file st).file = some (currentJson (_ensure_terms_file st)) := by
  rw [_ensure_terms_file]
  rcases hf : st.file with _ | j
  · rfl
  · simp [currentJson, hf]

theorem CacheWF_ensure (st : SysState) (h : CacheWF st) :
    CacheWF (_ensure_terms_file st) := by
  rw [_ensure_terms_file]
  rcases hf : st.file with _ | j
  · intro p hp
    have hold := h p hp
    rw [cacheEntryOK] at hold ⊢
    refine ⟨Nat.le_succ_of_le hold.1, fun heq => absurd hold.1 ?_⟩
    simp only at heq
    omega
  · intro p hp
    exact h p hp

theorem CacheWF_write (st : SysState) (h : CacheWF st) (j : Json) :
    CacheWF (writeJson st j) := by
  intro p hp
  have hold := h p hp
  rw [cacheEntryOK] at hold ⊢
  refine ⟨Nat.le_succ_of_le hold.1, fun heq => absurd hold.1 ?_⟩
  simp only [writeJson] at heq
  omega

theorem cache_hit_rules (st : SysState) (h : CacheWF st) (r : CRules)
    (hl : lookupCache (_ensure_terms_file st).cache (_ensure_terms_file st).mtime
      = some r) :
    compiledFor (currentJson (_ensure_terms_file st)) = Except.ok r := by
  have hmem := lookupCache_mem _ _ _ hl
  have hok := CacheWF_ensure st h _ hmem
  rw [cacheEntryOK] at hok
  have := hok.2 rfl
  rw [file_ensure st] at this
  simpa using this

/-- C3: cache coherence.  From any state whose cache is coherent with the
file, the cached `fix_terms` returns exactly what the uncached variant (which
reloads and recompiles the dictionary on every call) returns, coherence is
preserved by the call, and every dictionary mutation that bumps the
modification version — an external write or a successful `add_term` —
preserves coherence, so the next call compiles from the new contents. -/
theorem fix_terms_cache_coherence (st : SysState) (t : String) (hwf : CacheWF st) :
    (fix_terms st t).1 = (fix_terms_nocache st t).1
    ∧ CacheWF (fix_terms st t).2
    ∧ (∀ j, CacheWF (writeJson st j))
    ∧ (∀ c vs, CacheWF (add_term st c vs).2) := by
  refine ⟨?_, ?_, fun j => CacheWF_write st hwf j, ?_⟩
  · rw [fix_terms, fix_terms_nocache]
    by_cases ht : t = ""
    · rw [if_pos ht, if_pos ht]
    · rw [if_neg ht, if_neg ht]
      rcases hl : lookupCache (_ensure_terms_file st).cache (_ensure_terms_file st).mtime
        with _ | r
      · simp only [hl]
        rcases hcomp : compiledFor (currentJson (_ensure_terms_file st)) with e | r <;>
          simp only [hcomp]
      · simp only [hl, cache_hit_rules st hwf r hl]
  · rw [fix_terms]
    by_cases ht : t = ""
    · rw [if_pos ht]
      exact hwf
    · rw [if_neg ht]
      rcases hl : lookupCache (_ensure_terms_file st).cache (_ensure_terms_file st).mtime
        with _ | r
      · rcases hcomp : compiledFor (currentJson (_ensure_terms_file st)) with e | r
        · simp only [hl, hcomp]
          exact CacheWF_ensure st hwf
        · simp only [hl, hcomp]
          intro p hp
          rcases mem_insertCache _ _ _ _ hp with h1 | h2
          · subst h1
            rw [cacheEntryOK]
            refine ⟨le_refl _, fun _ => ?_⟩
            have hfe : (⟨(_ensure_terms_file st).file, (_ensure_terms_file st).mtime,
                insertCache (_ensure_terms_file st).cache (_ensure_terms_file st).mtime r⟩
                  : SysState).file = (_ensure_terms_file st).file := rfl
            rw [hfe, file_ensure st]
            simp [hcomp]
          · have hok := CacheWF_ensure st hwf _ h2
            rw [cacheEntryOK] at hok ⊢
            exact hok
      · simp only [hl]
        intro p hp
        have h2 := mem_touchCache _ _ _ hp
        have hok := CacheWF_ensure st hwf _ h2
        rw [cacheEntryOK] at hok ⊢
        exact hok
  · intro c vs
    rw [add_term]
    by_cases hc : pyStrip c = ""
    · rw [if_pos hc]
      exact hwf
    · rw [if_neg hc]
      rcases hload : _load_terms (currentJson (_ensure_terms_file st)) with e | terms
      · simp only [hload]
        exact CacheWF_ensure st hwf
      · simp only [hload]
        exact CacheWF_write _ (CacheWF_ensure st hwf) _

theorem fix_terms_cache_coherence_witness :
    (fix_terms cexState "x").1 = (fix_terms_nocache cexState "x").1 :=
  (fix_terms_cache_coherence cexState "x"
    (fun p hp => absurd hp (List.not_mem_nil p))).1

/-- C5: default bootstrap.  Against a fresh (nonexistent) dictionary
location, `fix_terms` creates the dictionary file containing the built-in
`DEFAULT_TERMS` and `fix_terms("Cloudcode")` returns `"Claude Code"`. -/
theorem fix_terms_default_bootstrap (st : SysState) (hwf : CacheWF st)
    (hfile : st.file = none) :
    (fix_terms st "Cloudcode").1 = Except.ok "Claude Code"
    ∧ (fix_terms st "Cloudcode").2.file = some (jsonOfTerms DEFAULT_TERMS) := by
  have hens : _ensure_terms_file st
      = ⟨some defaultJson, st.mtime + 1, st.cache⟩ := by
    rw [_ensure_terms_file, hfile]
  have hlook : lookupCache st.cache (st.mtime + 1) = none := by
    refine lookupCache_eq_none st.cache (st.mtime + 1) (fun p hp => ?_)
    exact Nat.lt_succ_of_le (hwf p hp).1
  have hcomp : compiledFor (currentJson ⟨some defaultJson, st.mtime + 1, st.cache⟩)
      = Except.ok defaultCRules := rfl
  rw [fix_terms, if_neg (by decide : ¬ ("Cloudcode" : String) = "")]
  simp only [hens, hlook, hcomp]
  exact ⟨rfl, rfl⟩

theorem fix_terms_default_bootstrap_witness :
    (fix_terms freshState "Cloudcode").1 = Except.ok "Claude Code"
    ∧ (fix_terms freshState "Cloudcode").2.file = some (jsonOfTerms DEFAULT_TERMS) :=
  fix_terms_default_bootstrap freshState (fun p hp => absurd hp (List.not_mem_nil p)) rfl

theorem load_error_format (j : Json) (e : TermError)
    (h : _load_terms j = Except.error e) : e = TermError.formatError := by
  cases j with
  | obj fields => exact absurd h (by simp [_load_terms])
  | null => exact (Except.error.inj h).symm
  | bool b => exact (Except.error.inj h).symm
  | num n => exact (Except.error.inj h).symm
  | str s => exact (Except.error.inj h).symm
  | arr xs => exact (Except.error.inj h).symm

/-- C6: `add_term` fails with `ValidationError` exactly when the canonical
term is empty or whitespace-only after trimming; on that error it returns
before touching the store, so the state (in particular the dictionary file)
is unchanged; a malformed store surfaces as `FormatError`, never as
`ValidationError`; and every non-erroring call returns the success status
`"ok"`, with no distinction between creating and extending a term. -/
theorem add_term_validation (st : SysState) (c : String) (vs : List String) :
    (pyStrip c = "" → add_term st c vs = (Except.error TermError.validationError, st))
    ∧ (pyStrip c ≠ "" →
        (add_term st c vs).1 ≠ Except.error TermError.validationError)
    ∧ (∀ s, (add_term st c vs).1 = Except.ok s → s = "ok") := by
  refine ⟨fun hc => ?_, fun hc => ?_, fun s hs => ?_⟩
  · rw [add_term, if_pos hc]
  · rw [add_term, if_neg hc]
    rcases hload : _load_terms (currentJson (_ensure_terms_file st)) with e | terms
    · have he := load_error_format _ _ hload
      subst he
      simp only [hload]
      simp
    · simp only [hload]
      simp
  · by_cases hc : pyStrip c = ""
    · rw [add_term, if_pos hc] at hs
      cases hs
    · rw [add_term, if_neg hc] at hs
      rcases hload : _load_terms (currentJson (_ensure_terms_file st)) with e | terms
      all_goals simp only [hload] at hs
      · cases hs
      · simpa using hs.symm

theorem add_term_validation_witness :
    add_term freshState "  " ["x"] = (Except.error TermError.validationError, freshState)
    ∧ (add_term freshState "FooBar" ["Foobar"]).1
        ≠ Except.error TermError.validationError :=
  ⟨(add_term_validation freshState "  " ["x"]).1 (by decide),
   (add_term_validation freshState "FooBar" ["Foobar"]).2.1 (by decide)⟩

theorem find_map_replace (k : String) (v : List String) :
    ∀ m : TermMap, m.any (fun p => p.1 == k) = true →
      (m.map (fun p => if p.1 == k then (k, v) else p)).find? (fun p => p.1 == k)
        = some (k, v) := by
  intro m
  induction m with
  | nil => intro h; cases h
  | cons p rest ih =>
    intro h
    cases hp : (p.1 == k) with
    | true =>
      have hmap : (if (p.1 == k) = true then (k, v) else p) = (k, v) := by
        rw [hp]
        simp
      simp only [List.map_cons, hmap]
      rw [List.find?_cons_of_pos _ (by simp)]
    | false =>
      have hmap : (if (p.1 == k) = true then (k, v) else p) = p := by
        rw [hp]
        simp
      simp only [List.map_cons, hmap]
      rw [List.find?_cons_of_neg _ (by simp [hp])]
      simp only [List.any_cons, hp, Bool.false_or] at h
      exact ih h

theorem find_append_right (k : String) (v : List String) :
    ∀ m : TermMap, m.any (fun p => p.1 == k) = false →
      (m ++ [(k, v)]).find? (fun p => p.1 == k) = some (k, v) := by
  intro m
  induction m with
  | nil =>
    intro _
    rw [List.nil_append, List.find?_cons_of_pos _ (by simp)]
  | cons p rest ih =>
    intro h
    simp only [List.any_cons, Bool.or_eq_false_iff] at h
    simp only [List.cons_append]
    rw [List.find?_cons_of_neg _ (by simp [h.1])]
    exact ih h.2

theorem find_map_ne (k k2 : String) (v : List String) (hne : k2 ≠ k) :
    ∀ m : TermMap,
      (m.map (fun p => if p.1 == k then (k, v) else p)).find? (fun p => p.1 == k2)
        = m.find? (fun p => p.1 == k2) := by
  intro m
  induction m with
  | nil => rfl
  | cons p rest ih =>
    cases hp : (p.1 == k) with
    | true =>
      have hmap : (if (p.1 == k) = true then (k, v) else p) = (k, v) := by
        rw [hp]
        simp
      have hpk : p.1 = k := by simpa using hp
      simp only [List.map_cons, hmap]
      rw [List.find?_cons_of_neg _ (by simp; exact fun hh => hne hh.symm),
        List.find?_cons_of_neg _ (by simp [hpk]; exact fun hh => hne hh.symm)]
      exact ih
    | false =>
      have hmap : (if (p.1 == k) = true then (k, v) else p) = p := by
        rw [hp]
        simp
      simp only [List.map_cons, hmap]
      by_cases hp2 : p.1 = k2
      · rw [List.find?_cons_of_pos _ (by simp [hp2]),
          List.find?_cons_of_pos _ (by simp [hp2])]
      · rw [List.find?_cons_of_neg _ (by simp [hp2]),
          List.find?_cons_of_neg _ (by simp [hp2])]
        exact ih

theorem find_append_ne (k k2 : String) (v : List String) (hne : k2 ≠ k) :
    ∀ m : TermMap,
      (m ++ [(k, v)]).find? (fun p => p.1 == k2) = m.find? (fun p => p.1 == k2) := by
  intro m
  induction m with
  | nil =>
    rw [List.nil_append, List.find?_cons_of_neg _ (by simp; exact fun hh => hne hh.symm)]
  | cons p rest ih =>
    simp only [List.cons_append]
    by_cases hp2 : p.1 = k2
    · rw [List.find?_cons_of_pos _ (by simp [hp2]),
        List.find?_cons_of_pos _ (by simp [hp2])]
    · rw [List.find?_cons_of_neg _ (by simp [hp2]),
        List.find?_cons_of_neg _ (by simp [hp2])]
      exact ih

theorem lookup_dictInsert_self (m : TermMap) (k : String) (v : List String) :
    lookup k (dictInsert m k v) = some v := by
  rw [lookup, dictInsert]
  by_cases h : m.any (fun p => p.1 == k) = true
  · rw [if_pos h, find_map_replace k v m h]
    rfl
  · have hf : m.any (fun p => p.1 == k) = false := by
      simp only [Bool.not_eq_true] at h
      exact h
    rw [if_neg h, find_append_right k v m hf]
    rfl

theorem lookup_dictInsert_ne (m : TermMap) (k k2 : String) (v : List String)
    (hne : k2 ≠ k) : lookup k2 (dictInsert m k v) = lookup k2 m := by
  rw [lookup, dictInsert, lookup]
  by_cases h : m.any (fun p => p.1 == k) = true
  · rw [if_pos h, find_map_ne k k2 v hne m]
  · rw [if_neg h, find_append_ne k k2 v hne m]

theorem lookup_foldl_insert_not_mem (k : String) :
    ∀ (fields : List (String × Json)) (acc : TermMap),
      (∀ kv ∈ fields, kv.1 ≠ k) →
      lookup k (fields.foldl (fun acc kv => dictInsert acc kv.1 (jsonVariants kv.2)) acc)
        = lookup k acc := by
  intro fields
  induction fields with
  | nil => intro acc _; rfl
  | cons f rest ih =>
    intro acc hmem
    simp only [List.foldl_cons]
    rw [ih _ (fun kv hkv => hmem kv (List.mem_cons_of_mem f hkv)),
      lookup_dictInsert_ne _ _ _ _ (Ne.symm (hmem f (List.mem_cons_self f rest)))]

theorem load_obj_lookup :
    ∀ (fields : List (String × Json)) (acc : TermMap),
      (fields.map Prod.fst).Nodup →
      ∀ kv ∈ fields,
        lookup kv.1
            (fields.foldl (fun acc kv => dictInsert acc kv.1 (jsonVariants kv.2)) acc)
          = some (jsonVariants kv.2) := by
  intro fields
  induction fields with
  | nil => intro acc _ kv hkv; cases hkv
  | cons f rest ih =>
    intro acc hnd kv hkv
    simp only [List.map_cons, List.nodup_cons] at hnd
    rcases List.mem_cons.mp hkv with h1 | h2
    · subst h1
      simp only [List.foldl_cons]
      rw [lookup_foldl_insert_not_mem _ rest _
        (fun kv2 hkv2 hh => hnd.1 (by rw [← hh]; exact List.mem_map_of_mem Prod.fst hkv2))]
      exact lookup_dictInsert_self acc kv.1 (jsonVariants kv.2)
    · simp only [List.foldl_cons]
      exact ih _ hnd.2 kv h2

theorem strListOf_some : ∀ (xs : List Json) (ss : List String),
    strListOf xs = some ss → xs = ss.map Json.str := by
  intro xs
  induction xs with
  | nil =>
    intro ss h
    have h2 := Option.some.inj h
    subst h2
    rfl
  | cons x rest ih =>
    intro ss h
    cases x with
    | str s =>
      rw [strListOf] at h
      rcases hr : strListOf rest with _ | ss2
      · rw [hr] at h
        cases h
      · rw [hr] at h
        have h2 := Option.some.inj h
        subst h2
        rw [List.map_cons, ← ih ss2 hr]
    | null => exact Option.noConfusion h
    | bool b => exact Option.noConfusion h
    | num n => exact Option.noConfusion h
    | arr ys => exact Option.noConfusion h
    | obj fs => exact Option.noConfusion h

/-- C7: `_load_terms` succeeds exactly on JSON objects, its only error is the
`FormatError` for a non-object top level, and inside a well-formed object a
key whose value is not a list of strings is kept with an empty variant list
(not dropped and not an error). -/
theorem load_terms_format_policy (j : Json) :
    ((∃ t, _load_terms j = Except.ok t) ↔ (∃ fields, j = Json.obj fields))
    ∧ (∀ e, _load_terms j = Except.error e → e = TermError.formatError)
    ∧ (∀ fields, j = Json.obj fields → (fields.map Prod.fst).Nodup →
        ∀ kv ∈ fields, ∃ t, _load_terms j = Except.ok t
          ∧ lookup kv.1 t = some (jsonVariants kv.2))
    ∧ (∀ v : Json, (∀ ss : List String, v ≠ Json.arr (ss.map Json.str)) →
        jsonVariants v = []) := by
  refine ⟨⟨?_, ?_⟩, fun e he => load_error_format j e he, ?_, ?_⟩
  · rintro ⟨t, ht⟩
    cases j with
    | obj fields => exact ⟨fields, rfl⟩
    | null => exact Except.noConfusion ht
    | bool b => exact Except.noConfusion ht
    | num n => exact Except.noConfusion ht
    | str s => exact Except.noConfusion ht
    | arr xs => exact Except.noConfusion ht
  · rintro ⟨fields, hf⟩
    subst hf
    exact ⟨_, rfl⟩
  · intro fields hf hnd kv hkv
    subst hf
    exact ⟨_, rfl, load_obj_lookup fields [] hnd kv hkv⟩
  · intro v hv
    cases v with
    | arr xs =>
      rw [jsonVariants]
      rcases hs : strListOf xs with _ | ss
      · rfl
      · exact absurd (congrArg Json.arr (strListOf_some xs ss hs)) (hv ss)
    | null => rfl
    | bool b => rfl
    | num n => rfl
    | str s => rfl
    | obj fs => rfl

theorem load_terms_format_policy_witness :
    (∃ t, _load_terms (Json.obj [("A", Json.arr [Json.str "a"]), ("B", Json.num 3)])
        = Except.ok t
      ∧ lookup "B" t = some [])
    ∧ jsonVariants (Json.num 3) = [] := by
  have h := load_terms_format_policy
    (Json.obj [("A", Json.arr [Json.str "a"]), ("B", Json.num 3)])
  refine ⟨?_, h.2.2.2 (Json.num 3) (fun ss hss => Json.noConfusion hss)⟩
  rcases h.2.2.1 _ rfl (by decide) ("B", Json.num 3)
      (List.mem_cons_of_mem _ (List.mem_cons_self _ _)) with ⟨t, ht, hl⟩
  exact ⟨t, ht, hl⟩

theorem add_term_map_eq (c : String) (vs : List String) (t : TermMap) :
    add_term_map c vs t = dictInsert t (touched_key t c) (merged_for t c vs) := rfl

theorem dedupAux_props : ∀ (l seen : List String),
    ((dedupAux seen l).map casefold).Nodup
    ∧ ∀ x ∈ dedupAux seen l, casefold x ∉ seen := by
  intro l
  induction l with
  | nil =>
    intro seen
    exact ⟨List.nodup_nil, fun x hx => absurd hx (List.not_mem_nil x)⟩
  | cons y ys ih =>
    intro seen
    rw [dedupAux]
    by_cases hy : casefold y ∈ seen
    · rw [if_pos hy]
      exact ih seen
    · rw [if_neg hy]
      refine ⟨?_, ?_⟩
      · rw [List.map_cons, List.nodup_cons]
        refine ⟨fun hmem => ?_, (ih _).1⟩
        rcases List.mem_map.mp hmem with ⟨z, hz, hzy⟩
        have h2 := (ih (casefold y :: seen)).2 z hz
        rw [hzy] at h2
        exact h2 (List.mem_cons_self _ _)
      · intro z hz
        rcases List.mem_cons.mp hz with h1 | h2
        · rw [h1]
          exact hy
        · have h3 := (ih (casefold y :: seen)).2 z h2
          exact fun hmem => h3 (List.mem_cons_of_mem _ hmem)

theorem dedupAux_sublist : ∀ (l seen : List String), List.Sublist (dedupAux seen l) l := by
  intro l
  induction l with
  | nil => intro seen; exact List.Sublist.refl []
  | cons y ys ih =>
    intro seen
    rw [dedupAux]
    by_cases hy : casefold y ∈ seen
    · rw [if_pos hy]
      exact (ih seen).cons y
    · rw [if_neg hy]
      exact (ih _).cons₂ y

theorem dedupAux_complete : ∀ (l seen : List String) (x : String), x ∈ l →
    casefold x ∈ seen ∨ casefold x ∈ (dedupAux seen l).map casefold := by
  intro l
  induction l with
  | nil => intro seen x hx; cases hx
  | cons y ys ih =>
    intro seen x hx
    rw [dedupAux]
    by_cases hy : casefold y ∈ seen
    · rw [if_pos hy]
      rcases List.mem_cons.mp hx with h1 | h2
      · rw [h1]
        exact Or.inl hy
      · exact ih seen x h2
    · rw [if_neg hy]
      rcases List.mem_cons.mp hx with h1 | h2
      · rw [h1, List.map_cons]
        exact Or.inr (List.mem_cons_self _ _)
      · rcases ih (casefold y :: seen) x h2 with h3 | h4
        · rcases List.mem_cons.mp h3 with h5 | h6
          · rw [List.map_cons, h5]
            exact Or.inr (List.mem_cons_self _ _)
          · exact Or.inl h6
        · rw [List.map_cons]
          exact Or.inr (List.mem_cons_of_mem _ h4)

theorem touched_key_cases (t : TermMap) (c : String) :
    (touched_key t c ∈ t.map Prod.fst ∧ casefold (touched_key t c) = casefold c)
    ∨ ((∀ k ∈ t.map Prod.fst, casefold k ≠ casefold c) ∧ touched_key t c = c) := by
  rw [touched_key]
  rcases hf : (t.map Prod.fst).find? (fun k => casefold k == casefold c) with _ | k
  · right
    refine ⟨fun k hk => ?_, rfl⟩
    have := List.find?_eq_none.mp hf k hk
    simpa using this
  · left
    constructor
    · simpa using List.mem_of_find?_eq_some hf
    · simpa using List.find?_some hf

theorem any_key_iff (m : TermMap) (k : String) :
    m.any (fun p => p.1 == k) = true ↔ k ∈ m.map Prod.fst := by
  rw [List.any_eq_true]
  constructor
  · rintro ⟨p, hp, hpk⟩
    have hp1 : p.1 = k := by simpa using hpk
    rw [← hp1]
    exact List.mem_map_of_mem Prod.fst hp
  · intro hk
    rcases List.mem_map.mp hk with ⟨p, hp, hpk⟩
    exact ⟨p, hp, by simp [hpk]⟩

theorem dictInsert_keys (m : TermMap) (k : String) (v : List String) :
    (dictInsert m k v).map Prod.fst
      = if k ∈ m.map Prod.fst then m.map Prod.fst else m.map Prod.fst ++ [k] := by
  rw [dictInsert]
  by_cases h : m.any (fun p => p.1 == k) = true
  · rw [if_pos h, if_pos ((any_key_iff m k).mp h), List.map_map]
    apply List.map_congr_left
    intro p hp
    by_cases hpk : p.1 = k
    · simp [Function.comp, hpk]
    · simp [Function.comp, hpk]
  · have h2 : k ∉ m.map Prod.fst := fun hk => h ((any_key_iff m k).mpr hk)
    rw [if_neg h, if_neg h2, List.map_append]
    rfl

theorem add_term_map_keys_unique (t : TermMap) (c : String) (vs : List String)
    (h : KeysUniqueCI t) : KeysUniqueCI (add_term_map c vs t) := by
  rw [KeysUniqueCI, add_term_map_eq, dictInsert_keys]
  by_cases hmem : touched_key t c ∈ t.map Prod.fst
  · rw [if_pos hmem]
    exact h
  · rw [if_neg hmem, List.map_append]
    rcases touched_key_cases t c with ⟨hmem2, _⟩ | ⟨hall, heq⟩
    · exact absurd hmem2 hmem
    · rw [List.nodup_append]
      refine ⟨h, List.nodup_singleton _, fun a ha hb => ?_⟩
      rcases List.mem_map.mp ha with ⟨k, hk, hkc⟩
      have hane : a ≠ casefold (touched_key t c) := by
        rw [heq, ← hkc]
        exact hall k hk
      rcases List.mem_singleton.mp hb with hb2
      exact hane (by rw [hb2])

theorem merged_for_clean (t : TermMap) (c : String) (vs : List String) :
    CleanEntry (touched_key t c) (merged_for t c vs) := by
  rw [CleanEntry, merged_for, _dedup_preserve_order]
  constructor
  · have h1 := (dedupAux_props ((lookup (touched_key t c) t).getD [] ++ vs) []).1
    exact List.Nodup.sublist ((List.filter_sublist _).map casefold) h1
  · intro v hv
    have h2 := List.of_mem_filter hv
    simpa using h2

theorem add_term_map_lookup_touched (t : TermMap) (c : String) (vs : List String) :
    lookup (touched_key t c) (add_term_map c vs t) = some (merged_for t c vs) := by
  rw [add_term_map_eq]
  exact lookup_dictInsert_self t _ _

theorem add_term_map_lookup_other (t : TermMap) (c : String) (vs : List String)
    (k : String) (hk : k ≠ touched_key t c) :
    lookup k (add_term_map c vs t) = lookup k t := by
  rw [add_term_map_eq]
  exact lookup_dictInsert_ne t _ k _ hk

theorem merged_for_sublist (t : TermMap) (c : String) (vs : List String) :
    List.Sublist (merged_for t c vs) ((lookup (touched_key t c) t).getD [] ++ vs) := by
  rw [merged_for, _dedup_preserve_order]
  exact (List.filter_sublist _).trans (dedupAux_sublist _ [])

theorem merged_for_complete (t : TermMap) (c : String) (vs : List String) :
    ∀ v ∈ (lookup (touched_key t c) t).getD [] ++ vs,
      casefold v = casefold (touched_key t c)
      ∨ casefold v ∈ (merged_for t c vs).map casefold := by
  intro v hv
  by_cases hvk : casefold v = casefold (touched_key t c)
  · exact Or.inl hvk
  · right
    rcases dedupAux_complete _ [] v hv with h1 | h2
    · exact absurd h1 (List.not_mem_nil _)
    · rcases List.mem_map.mp h2 with ⟨w, hw, hwv⟩
      rw [merged_for, _dedup_preserve_order]
      refine List.mem_map.mpr ⟨w, List.mem_filter.mpr ⟨hw, ?_⟩, hwv⟩
      simp only [decide_eq_true_eq]
      rw [hwv]
      exact hvk

theorem clean_preserved : ∀ (calls : List (String × List String)) (t : TermMap)
    (k : String) (m : List String),
    lookup k t = some m → CleanEntry k m →
    ∃ m2, lookup k (add_seq t calls) = some m2 ∧ CleanEntry k m2 := by
  intro calls
  induction calls with
  | nil => intro t k m hl hc; exact ⟨m, hl, hc⟩
  | cons call rest ih =>
    intro t k m hl hc
    by_cases hk : k = touched_key t (pyStrip call.1)
    · rw [hk]
      exact ih (add_call t call) _ _ (add_term_map_lookup_touched t (pyStrip call.1) _)
        (merged_for_clean t (pyStrip call.1) _)
    · exact ih (add_call t call) k m
        (by rw [add_call, add_term_map_lookup_other _ _ _ k hk]; exact hl) hc

theorem seq_unique : ∀ (calls : List (String × List String)) (t : TermMap),
    KeysUniqueCI t → KeysUniqueCI (add_seq t calls) := by
  intro calls
  induction calls with
  | nil => intro t h; exact h
  | cons call rest ih =>
    intro t h
    exact ih (add_call t call) (add_term_map_keys_unique t _ _ h)

theorem seq_touched_clean : ∀ (calls : List (String × List String)) (t : TermMap),
    ∀ k ∈ touched_keys t calls,
      ∃ m, lookup k (add_seq t calls) = some m ∧ CleanEntry k m := by
  intro calls
  induction calls with
  | nil => intro t k hk; cases hk
  | cons call rest ih =>
    intro t k hk
    rcases List.mem_cons.mp hk with h1 | h2
    · rw [h1]
      exact clean_preserved rest (add_call t call) _ _
        (add_term_map_lookup_touched t (pyStrip call.1) _)
        (merged_for_clean t (pyStrip call.1) _)
    · exact ih (add_call t call) k h2

theorem add_term_map_keys_reuse (t : TermMap) (c : String) (vs : List String)
    (k : String)
    (hf : (t.map Prod.fst).find? (fun k0 => casefold k0 == casefold c) = some k) :
    (add_term_map c vs t).map Prod.fst = t.map Prod.fst := by
  have htk : touched_key t c = k := by
    rw [touched_key, hf]
    rfl
  rw [add_term_map_eq, dictInsert_keys,
    if_pos (htk ▸ List.mem_of_find?_eq_some hf)]

/-- C4: starting from a stored map with case-insensitively unique canonical
keys, any sequence of successful `add_term` merges keeps the keys unique; a
new term that matches an existing key case-insensitively reuses that key (the
key set is unchanged); every key touched by the sequence ends with a variant
list that has no case-insensitive duplicates and no entry case-insensitively
equal to its key; and each merge keeps the surviving variants as a subsequence
of old-variants-then-new-variants (first-seen order), dropping only
case-insensitive repeats and matches of the canonical key. -/
theorem add_term_invariants (t : TermMap) (calls : List (String × List String))
    (h : KeysUniqueCI t) :
    KeysUniqueCI (add_seq t calls)
    ∧ (∀ k ∈ touched_keys t calls,
        ∃ m, lookup k (add_seq t calls) = some m ∧ CleanEntry k m)
    ∧ (∀ c vs k,
        (t.map Prod.fst).find? (fun k0 => casefold k0 == casefold c) = some k →
          (add_term_map c vs t).map Prod.fst = t.map Prod.fst)
    ∧ (∀ c vs,
        lookup (touched_key t c) (add_term_map c vs t) = some (merged_for t c vs)
        ∧ CleanEntry (touched_key t c) (merged_for t c vs)
        ∧ List.Sublist (merged_for t c vs)
            ((lookup (touched_key t c) t).getD [] ++ vs)
        ∧ ∀ v ∈ (lookup (touched_key t c) t).getD [] ++ vs,
            casefold v = casefold (touched_key t c)
            ∨ casefold v ∈ (merged_for t c vs).map casefold) :=
  ⟨seq_unique calls t h,
   seq_touched_clean calls t,
   fun c vs k hf => add_term_map_keys_reuse t c vs k hf,
   fun c vs =>
     ⟨add_term_map_lookup_touched t c vs, merged_for_clean t c vs,
      merged_for_sublist t c vs, merged_for_complete t c vs⟩⟩

theorem add_term_invariants_witness :
    KeysUniqueCI (add_seq [("FooBar", ["Foobar"])]
      [("fooBAR", ["FOOBAR", "foo bar"]), ("New", ["NEW"])])
    ∧ ∃ m, lookup "FooBar"
        (add_seq [("FooBar", ["Foobar"])]
          [("fooBAR", ["FOOBAR", "foo bar"]), ("New", ["NEW"])])
        = some m ∧ CleanEntry "FooBar" m := by
  have h := add_term_invariants [("FooBar", ["Foobar"])]
    [("fooBAR", ["FOOBAR", "foo bar"]), ("New", ["NEW"])]
    (by decide : ((([("FooBar", ["Foobar"])] : TermMap).map Prod.fst).map casefold).Nodup)
  refine ⟨h.1, ?_⟩
  have hmem : "FooBar" ∈ touched_keys [("FooBar", ["Foobar"])]
      [("fooBAR", ["FOOBAR", "foo bar"]), ("New", ["NEW"])] := by decide
  exact h.2.1 "FooBar" hmem

theorem filter_prio_orderedInsert (p : Nat) (a : Rule) (l : List Rule) :
    (List.orderedInsert rle a l).filter (fun r => r.prio == p)
      = if a.prio = p then a :: l.filter (fun r => r.prio == p)
        else l.filter (fun r => r.prio == p) := by
  rw [List.orderedInsert_eq_take_drop, List.filter_append, List.filter_cons]
  by_cases hap : a.prio = p
  · rw [if_pos hap, if_pos (by simp [hap])]
    have htake : (l.takeWhile (fun b => decide (¬ rle a b))).filter
        (fun r => r.prio == p) = [] := by
      rw [List.filter_eq_nil_iff]
      intro b hb
      have hpred := List.mem_takeWhile_imp hb
      have hgt : ¬ rle a b := by simpa using hpred
      rw [rle] at hgt
      simp only [beq_iff_eq]
      omega
    rw [htake, List.nil_append]
    congr 1
    conv_rhs => rw [← List.takeWhile_append_dropWhile (fun b => decide (¬ rle a b)) l]
    rw [List.filter_append, htake, List.nil_append]
  · rw [if_neg hap, if_neg (by simp [hap])]
    conv_rhs => rw [← List.takeWhile_append_dropWhile (fun b => decide (¬ rle a b)) l]
    rw [List.filter_append]

theorem filter_prio_insertionSort (p : Nat) : ∀ l : List Rule,
    (List.insertionSort rle l).filter (fun r => r.prio == p)
      = l.filter (fun r => r.prio == p) := by
  intro l
  induction l with
  | nil => rfl
  | cons a l ih =>
    rw [List.insertionSort, filter_prio_orderedInsert, List.filter_cons]
    by_cases hap : a.prio = p
    · rw [if_pos hap, if_pos (by simp [hap]), ih]
    · rw [if_neg hap, if_neg (by simp [hap]), ih]

theorem mem_compile_iff (terms : TermMap) (r : Rule) :
    r ∈ _compile_rules terms ↔ r ∈ raw_rules terms :=
  (List.perm_insertionSort rle (raw_rules terms)).mem_iff

theorem mem_rulesOfEntry (c : String) (vs : List String) (r : Rule)
    (h : r ∈ rulesOfEntry c vs) :
    pyStrip c ≠ "" ∧ r.repl = c ∧ r.lit ≠ "" ∧ r.prio = r.lit.length
    ∧ ∃ v ∈ c :: vs, r.lit = pyStrip v := by
  rw [rulesOfEntry] at h
  by_cases hc : pyStrip c = ""
  · rw [if_pos hc] at h
    cases h
  · rw [if_neg hc] at h
    rcases List.mem_filterMap.mp h with ⟨v, hv, hr⟩
    simp only at hr
    by_cases hvv : pyStrip v = ""
    · rw [if_pos hvv] at hr
      cases hr
    · rw [if_neg hvv] at hr
      have hre := Option.some.inj hr
      subst hre
      exact ⟨hc, rfl, hvv, rfl, v, (dedupAux_sublist (c :: vs) []).mem hv, rfl⟩

theorem mem_raw (terms : TermMap) (r : Rule) (h : r ∈ raw_rules terms) :
    ∃ p ∈ terms, r ∈ rulesOfEntry p.1 p.2 := by
  rw [raw_rules] at h
  rcases List.mem_flatten.mp h with ⟨l, hl, hrl⟩
  rcases List.mem_map.mp hl with ⟨p, hp, hpl⟩
  exact ⟨p, hp, hpl ▸ hrl⟩

theorem canonical_rule_mem (terms : TermMap) (c : String) (vs : List String)
    (hmem : (c, vs) ∈ terms) (hc : pyStrip c ≠ "") :
    (⟨pyStrip c, c, (pyStrip c).length⟩ : Rule) ∈ _compile_rules terms := by
  rw [mem_compile_iff, raw_rules]
  refine List.mem_flatten.mpr
    ⟨rulesOfEntry c vs, List.mem_map.mpr ⟨(c, vs), hmem, rfl⟩, ?_⟩
  rw [rulesOfEntry, if_neg hc]
  refine List.mem_filterMap.mpr ⟨c, ?_, ?_⟩
  · rw [_dedup_preserve_order, dedupAux, if_neg (List.not_mem_nil _)]
    exact List.mem_cons_self _ _
  · simp only
    rw [if_neg hc]

/-- C8: `_compile_rules` skips blank canonical terms, compiles each surviving
entry's canonical term and deduplicated variants into rules whose literal is
the trimmed variant (never empty), whose replacement is the canonical term and
whose priority is the trimmed literal's character length; the canonical term's
own rule is always present; and the result is the raw per-entry rule list
sorted by non-increasing priority, with equal-priority rules keeping their
relative input order (the filter at every priority is unchanged). -/
theorem compile_rules_spec (terms : TermMap) :
    List.Sorted rle (_compile_rules terms)
    ∧ (∀ p : Nat, (_compile_rules terms).filter (fun r => r.prio == p)
        = (raw_rules terms).filter (fun r => r.prio == p))
    ∧ (∀ r ∈ _compile_rules terms,
        ∃ pr ∈ terms, pyStrip pr.1 ≠ "" ∧ r.repl = pr.1 ∧ r.lit ≠ ""
          ∧ r.prio = r.lit.length ∧ ∃ v ∈ pr.1 :: pr.2, r.lit = pyStrip v)
    ∧ (∀ pr ∈ terms, pyStrip pr.1 ≠ "" →
        (⟨pyStrip pr.1, pr.1, (pyStrip pr.1).length⟩ : Rule) ∈ _compile_rules terms) := by
  refine ⟨List.sorted_insertionSort rle _, fun p => filter_prio_insertionSort p _,
    ?_, ?_⟩
  · intro r hr
    rcases mem_raw terms r ((mem_compile_iff terms r).mp hr) with ⟨pr, hpr, hre⟩
    rcases mem_rulesOfEntry pr.1 pr.2 r hre with ⟨h1, h2, h3, h4, h5⟩
    exact ⟨pr, hpr, h1, h2, h3, h4, h5⟩
  · intro pr hpr hc
    exact canonical_rule_mem terms pr.1 pr.2 hpr hc

theorem compile_rules_spec_witness :
    List.Sorted rle (_compile_rules DEFAULT_TERMS)
    ∧ (⟨"Claude Code", "Claude Code", 11⟩ : Rule) ∈ _compile_rules DEFAULT_TERMS := by
  have h := compile_rules_spec DEFAULT_TERMS
  refine ⟨h.1, ?_⟩
  have h2 := h.2.2.2 ("Claude Code", ["Cloudcode", "Cloud Code", "ClaudeCode"])
    (List.mem_cons_self _ _) (by decide)
  exact h2

theorem sorted_perm_nodupkeys_eq : ∀ (l1 l2 : TermMap), List.Perm l1 l2 →
    List.Sorted keyle l1 → List.Sorted keyle l2 → (l1.map Prod.fst).Nodup →
    l1 = l2 := by
  intro l1
  induction l1 with
  | nil =>
    intro l2 hperm _ _ _
    exact hperm.nil_eq
  | cons a t1 ih =>
    intro l2 hperm hs1 hs2 hnd
    match l2 with
    | [] =>
      have := hperm.length_eq
      simp at this
    | b :: t2 =>
      have hab : a = b := by
        have ha2 : a ∈ b :: t2 := hperm.mem_iff.mp (List.mem_cons_self _ _)
        have hb1 : b ∈ a :: t1 := hperm.symm.mem_iff.mp (List.mem_cons_self _ _)
        rcases List.mem_cons.mp ha2 with h | ha3
        · exact h
        · rcases List.mem_cons.mp hb1 with h | hb3
          · exact h.symm
          · have h1 : keyle a b := (List.sorted_cons.mp hs1).1 b hb3
            have h2 : keyle b a := (List.sorted_cons.mp hs2).1 a ha3
            have hkey : a.1 = b.1 := le_antisymm h1 h2
            rw [List.map_cons, List.nodup_cons] at hnd
            exact absurd (by rw [hkey]; exact List.mem_map_of_mem Prod.fst hb3) hnd.1
      subst hab
      have hperm2 : List.Perm t1 t2 := List.Perm.cons_inv hperm
      rw [ih t2 hperm2 (List.sorted_cons.mp hs1).2 (List.sorted_cons.mp hs2).2
        (by rw [List.map_cons, List.nodup_cons] at hnd; exact hnd.2)]

theorem serialize_deterministic (t1 t2 : TermMap) (hperm : List.Perm t1 t2)
    (hnd : (t1.map Prod.fst).Nodup) : serialize_terms t1 = serialize_terms t2 := by
  have hsort : List.insertionSort keyle t1 = List.insertionSort keyle t2 := by
    apply sorted_perm_nodupkeys_eq
    · exact (List.perm_insertionSort keyle t1).trans
        (hperm.trans (List.perm_insertionSort keyle t2).symm)
    · exact List.sorted_insertionSort keyle t1
    · exact List.sorted_insertionSort keyle t2
    · exact (((List.perm_insertionSort keyle t1).map Prod.fst).nodup_iff).mpr hnd
  rw [serialize_terms, serialize_terms, py_json_dumps, py_json_dumps, hsort]

/-- C9: `save` is deterministic — equal maps (same entries, in any stored
order, with unique keys) serialize to identical bytes; the serialization is
the key-sorted pretty-printed object with a trailing newline; and the write is
atomic: parent directories are created, only the temporary sibling is written
first, and the rename installs the complete serialization, so the target only
ever holds its old content or the complete new one. -/
theorem save_deterministic_atomic :
    (∀ t1 t2 : TermMap, List.Perm t1 t2 → (t1.map Prod.fst).Nodup →
      serialize_terms t1 = serialize_terms t2)
    ∧ (∀ t : TermMap, (serialize_terms t).data.getLast? = some '\n')
    ∧ (∀ t : TermMap, List.Sorted keyle (List.insertionSort keyle t)
        ∧ py_json_dumps t = dumpsSorted (List.insertionSort keyle t))
    ∧ (∀ (t : TermMap) (fs : FileSys),
        (writeTmpStep (serialize_terms t) (mkdirStep fs)).target = fs.target
        ∧ (_atomic_write_json t fs).target = some (serialize_terms t)
        ∧ (_atomic_write_json t fs).tmp = none
        ∧ (_atomic_write_json t fs).parentDirs = true) := by
  refine ⟨serialize_deterministic, ?_, fun t => ⟨List.sorted_insertionSort keyle t, rfl⟩,
    fun t fs => ⟨rfl, rfl, rfl, rfl⟩⟩
  intro t
  rcases hmk : py_json_dumps t with ⟨d⟩
  rw [serialize_terms, hmk]
  show (d ++ ['\n']).getLast? = some '\n'
  rw [List.getLast?_concat]

theorem save_deterministic_atomic_witness :
    serialize_terms [("b", []), ("a", ["x"])]
      = serialize_terms [("a", ["x"]), ("b", [])] :=
  save_deterministic_atomic.1 _ _ (List.Perm.swap ("a", ["x"]) ("b", []) [])
    (by decide)
